import Mathlib

/-!
Shallow embedding of the retrieval core of a small RAG (retrieval-augmented
generation) chat application: a recursive character text chunker, a vector
store with counter-based record ids and metadata canonicalization, similarity
search, and the grounded answering routine with its empty-retrieval refusal
short-circuit.

Python strings are modelled as lists of characters (`Str`), Python dicts as
association lists with insertion-order / last-writer-wins semantics, and
Python metadata values as the inductive type `PyVal`.
-/

namespace RagCore

/-- Python strings are modelled as lists of characters. -/
abbrev Str := List Char

/-- Sum of the lengths of a list of strings. -/
def sumLen (l : List Str) : Nat := (l.map List.length).sum

/-- Model of Python `str.strip`: drop leading and trailing whitespace. -/
def strTrim (s : Str) : Str :=
  ((s.dropWhile Char.isWhitespace).reverse.dropWhile Char.isWhitespace).reverse

/-- Python runtime values that can appear in chunk metadata: the scalar set
(str, int, float, bool), lists, and None.  Float payloads are modelled
opaquely by an integer tag; the code never computes with metadata floats. -/
inductive PyVal where
  | str : Str → PyVal
  | int : Int → PyVal
  | float : Int → PyVal
  | bool : Bool → PyVal
  | list : List PyVal → PyVal
  | pynone : PyVal

mutual

/-- Model of Python `repr` restricted to `PyVal` (what `str` produces on
non-string values; `Char.ofNat 39` is the ASCII apostrophe quote). -/
def pyRepr : PyVal → Str
  | .str s => Char.ofNat 39 :: (s ++ [Char.ofNat 39])
  | .int n => (toString n).toList
  | .float n => (toString n).toList
  | .bool b => if b then "True".toList else "False".toList
  | .list l => '[' :: (pyReprList l ++ [']'])
  | .pynone => "None".toList

/-- Comma-separated reprs of the elements of a Python list. -/
def pyReprList : List PyVal → Str
  | [] => []
  | [v] => pyRepr v
  | v :: rest => pyRepr v ++ ", ".toList ++ pyReprList rest

end

/-- Model of Python `str(value)`: a string maps to itself, anything else to
its repr. -/
def pyStr : PyVal → Str
  | .str s => s
  | v => pyRepr v

/-- Ordered-dict lookup: the value of the first entry carrying the key. -/
def dictGet (d : List (String × PyVal)) (k : String) : Option PyVal :=
  (d.find? (fun p => p.1 == k)).map (fun p => p.2)

/-- Ordered-dict update: overwrite an existing key in place, else append. -/
def dictInsert (d : List (String × PyVal)) (k : String) (v : PyVal) :
    List (String × PyVal) :=
  if d.any (fun p => p.1 == k) then
    d.map (fun p => if p.1 == k then (k, v) else p)
  else d ++ [(k, v)]

/-- Model of the Python dict-literal merge `{**d, **e}`: the entries of `e`
are written over `d` in order, later writers winning. -/
def dictMerge (d e : List (String × PyVal)) : List (String × PyVal) :=
  e.foldl (fun acc p => dictInsert acc p.1 p.2) d

/-! ## The text splitter

`TextChunker` (src/utils/chunking.py) delegates the actual splitting to
LangChain's `RecursiveCharacterTextSplitter`, constructed with
`keep_separator = True` and `strip_whitespace = True`.  The definitions below
embed that splitter: recursive descent through an ordered separator list,
greedy merging of small pieces up to `chunk_size` with an overlap-retention
pop loop.  Because `keep_separator` is true, the separator used when merging
is always the empty string. -/

/-- Model of Python `text.split(sep)` for a non-empty literal separator
(`re.split` on the escaped separator).  `fuel` bounds the recursion; every
step consumes at least one character, so `text.length + 1` is enough. -/
def splitOnAux (sep : Str) : Nat → Str → Str → List Str
  | 0, t, acc => [acc.reverse ++ t]
  | fuel + 1, t, acc =>
    if sep.isPrefixOf t then
      acc.reverse :: splitOnAux sep fuel (t.drop sep.length) []
    else
      match t with
      | [] => [acc.reverse]
      | c :: rest => splitOnAux sep fuel rest (c :: acc)

/-- Split a string on a literal separator; the degenerate empty separator
never reaches this function in the embedded code paths. -/
def splitOnList (sep t : Str) : List Str :=
  if sep = [] then [t] else splitOnAux sep (t.length + 1) t []

/-- Model of LangChain `_split_text_with_regex(text, sep, keep_separator=True)`
for a literal separator: the separator is re-attached as a prefix of the piece
following it, the empty separator splits into single characters, and empty
pieces are filtered out. -/
def splitKeep (sep t : Str) : List Str :=
  if sep = [] then (t.map (fun c => [c])).filter (fun s => s ≠ [])
  else
    match splitOnList sep t with
    | [] => []
    | t0 :: rest => (t0 :: rest.map (fun ti => sep ++ ti)).filter (fun s => s ≠ [])

/-- Substring occurrence test, modelling `re.search(re.escape(sep), text)`
for a non-empty separator. -/
def occursIn (sep : Str) : Str → Bool
  | [] => sep.isPrefixOf []
  | t :: rest => sep.isPrefixOf (t :: rest) || occursIn sep rest

/-- Model of the separator-selection loop at the top of LangChain
`RecursiveCharacterTextSplitter._split_text`: pick the first separator that is
empty (then no further separators are kept) or occurs in the text (then the
remaining separators are kept for recursion); if none matches, fall back to
the last separator with nothing kept. -/
def chooseSep (t : Str) : List Str → (Str × List Str)
  | [] => ([], [])
  | s :: rest =>
    if s = [] then ([], [])
    else if occursIn s t then (s, rest)
    else
      match rest with
      | [] => (s, [])
      | _ :: _ => chooseSep t rest

/-- Model of LangChain `TextSplitter._join_docs(docs, "")`: join, strip,
drop the result when it is empty. -/
def joinDocs (docs : List Str) : Option Str :=
  if strTrim docs.flatten = [] then none else some (strTrim docs.flatten)

/-- Model of the overlap-retention `while` loop inside
`TextSplitter._merge_splits` (separator length 0): keep popping the front of
the running window while its total length exceeds the overlap, or while it is
still too long to admit the incoming piece. -/
def popLoop (cs ov dlen : Nat) : List Str → List Str
  | [] => []
  | c :: rest =>
    if sumLen (c :: rest) > ov ∨ (sumLen (c :: rest) + dlen > cs ∧ sumLen (c :: rest) > 0) then
      popLoop cs ov dlen rest
    else c :: rest

/-- One iteration of the `for d in splits` loop of
`TextSplitter._merge_splits`: state is (emitted docs, running window). -/
def mergeStep (cs ov : Nat) (st : List Str × List Str) (d : Str) :
    List Str × List Str :=
  let docs := st.1
  let current := st.2
  let total := sumLen current
  if total + d.length > cs then
    let docs' :=
      if current = [] then docs
      else
        match joinDocs current with
        | some doc => docs ++ [doc]
        | none => docs
    (docs', popLoop cs ov d.length current ++ [d])
  else
    (docs, current ++ [d])

/-- Model of LangChain `TextSplitter._merge_splits(splits, "")`: greedy
packing of pieces into documents of at most `cs` characters, retaining an
overlap window of at most `ov` characters across boundaries. -/
def mergeSplits (cs ov : Nat) (splits : List Str) : List Str :=
  let st := splits.foldl (mergeStep cs ov) ([], [])
  match joinDocs st.2 with
  | some doc => st.1 ++ [doc]
  | none => st.1

/-- How a too-long piece is handled: recursed into when finer separators
remain (`recurse = some f`, the `_split_text(s, new_separators)` call),
emitted as-is when none do (`recurse = none`). -/
def recurseOut (recurse : Option (Str → List Str)) (s : Str) : List Str :=
  match recurse with
  | none => [s]
  | some f => f s

/-- Model of the piece-processing loop of
`RecursiveCharacterTextSplitter._split_text`: pieces shorter than `cs` are
accumulated and merged; a long piece first flushes the accumulator, then is
handled by `recurseOut`. -/
def processSplits (cs ov : Nat) (recurse : Option (Str → List Str)) :
    List Str → List Str → List Str
  | good, [] => if good = [] then [] else mergeSplits cs ov good
  | good, s :: rest =>
    if s.length < cs then processSplits cs ov recurse (good ++ [s]) rest
    else
      (if good = [] then [] else mergeSplits cs ov good) ++
        recurseOut recurse s ++ processSplits cs ov recurse [] rest

/-- Model of `RecursiveCharacterTextSplitter._split_text(text, separators)`.
The recursion always descends to a strict suffix of the separator list, so a
fuel of `separators.length` suffices; the fuel-exhausted fallback is never
reached on the embedded call paths. -/
def splitTextFuel (cs ov : Nat) : Nat → List Str → Str → List Str
  | 0, _, t => [t]
  | fuel + 1, seps, t =>
    let p := chooseSep t seps
    let splits := splitKeep p.1 t
    let recurse :=
      if p.2 = [] then none
      else some (fun s => splitTextFuel cs ov fuel p.2 s)
    processSplits cs ov recurse [] splits

/-- Model of `RecursiveCharacterTextSplitter.split_text`. -/
def split_text (cs ov : Nat) (seps : List Str) (t : Str) : List Str :=
  splitTextFuel cs ov seps.length seps t

/-! ## TextChunker (src/utils/chunking.py) -/

/-- The default separator hierarchy of `TextChunker.__init__`: paragraph,
line, sentence-ending punctuation, comma, space, character fallback. -/
def defaultSeparators : List Str :=
  ["\n\n".toList, "\n".toList, ". ".toList, "! ".toList, "? ".toList,
   ", ".toList, " ".toList, []]

/-- One element of the list returned by `TextChunker.chunk_text`. -/
structure Chunk where
  text : Str
  metadata : List (String × PyVal)

/-- Model of `TextChunker.__init__(chunk_size, chunk_overlap)`.  The class
itself performs no validation; the only construction-time check is in the
underlying LangChain `TextSplitter.__init__`, which raises `ValueError`
exactly when `chunk_overlap > chunk_size`. -/
def TextChunker.init (chunk_size chunk_overlap : Int) : Except Str (Int × Int) :=
  if chunk_overlap > chunk_size then
    .error ("Got a larger chunk overlap than chunk size, should be smaller.".toList)
  else .ok (chunk_size, chunk_overlap)

/-- The chunk-level metadata fields assigned by `chunk_text` before the
document metadata is merged over them. -/
def baseMeta (i n : Nat) (c : Str) : List (String × PyVal) :=
  [("chunk_id", .int i), ("chunk_size", .int c.length), ("total_chunks", .int n)]

/-- Model of `TextChunker.chunk_text(text, metadata)`: empty or
whitespace-only text yields no chunks; otherwise the splitter output is
wrapped with enumerated metadata, with the document metadata merged last. -/
def TextChunker.chunk_text (chunk_size chunk_overlap : Nat) (separators : List Str)
    (text : Str) (metadata : List (String × PyVal)) : List Chunk :=
  if text = [] ∨ strTrim text = [] then []
  else
    let chunks := split_text chunk_size chunk_overlap separators text
    chunks.enum.map (fun p =>
      { text := p.2
        metadata := dictMerge (baseMeta p.1 chunks.length p.2) metadata })

/-! ## Vector store (src/utils/vector_store.py)

The ChromaDB collection behind `VectorStore` is modelled by its records in
insertion order; `collection.count()` is the length of that list.  The
`query` operation of ChromaDB is not part of this repository, so it is
modelled from the spec (exact scan, ascending distance, at most `k` rows). -/

/-- Decimal digit characters of `n`, most significant first (empty for 0);
the fuel argument only bounds the recursion, `n` itself is always enough. -/
def natDigits : Nat → Nat → Str
  | 0, _ => []
  | fuel + 1, n => if n = 0 then [] else natDigits fuel (n / 10) ++ [Char.ofNat (48 + n % 10)]

/-- Model of Python `str` on a non-negative integer: decimal digit string. -/
def natToStr (n : Nat) : Str := if n = 0 then ['0'] else natDigits n n

/-- Model of the f-string `f"chunk_{c}"` used for record ids. -/
def chunkIdStr (n : Nat) : Str := "chunk_".toList ++ natToStr n

/-- Parse a decimal digit string back to a number; the left inverse of
`natToStr`, used to establish that distinct counters give distinct ids. -/
def digitsToNat (ds : Str) : Nat := ds.foldl (fun a c => a * 10 + (c.toNat - 48)) 0

/-- Membership in the scalar set ChromaDB accepts (str, int, float, bool),
i.e. Python `isinstance(value, (str, int, float, bool))`. -/
def isScalar : PyVal → Bool
  | .str _ => true
  | .int _ => true
  | .float _ => true
  | .bool _ => true
  | _ => false

/-- Model of the metadata-cleaning conditional inside
`VectorStore.add_chunks`: scalars pass through unchanged, lists are turned
into their string representation, and so is any other value. -/
def cleanValue (v : PyVal) : PyVal :=
  if isScalar v then v
  else
    match v with
    | .list l => .str (pyStr (.list l))
    | w => .str (pyStr w)

/-- Clean every metadata value of a record before insertion. -/
def cleanMetadata (m : List (String × PyVal)) : List (String × PyVal) :=
  m.map (fun p => (p.1, cleanValue p.2))

/-- A record persisted in a ChromaDB collection. -/
structure IndexedRecord where
  id : Str
  embedding : List Int
  document : Str
  metadata : List (String × PyVal)

/-- One element of the `chunks_with_embeddings` argument of `add_chunks`. -/
structure ChunkInput where
  text : Str
  embedding : List Int
  metadata : List (String × PyVal)

/-- A ChromaDB collection, modelled by its records in insertion order. -/
abbrev Collection := List IndexedRecord

/-- Model of `VectorStore.add_chunks`: empty input is a warned no-op;
otherwise record `i` of the batch gets id `f"chunk_{count + i}"` (the count
is read before the single `collection.add` call, so it is the pre-insertion
count for the whole batch), cleaned metadata, and is appended. -/
def VectorStore.add_chunks (col : Collection) (chunks : List ChunkInput) : Collection :=
  match chunks with
  | [] => col
  | _ :: _ =>
    col ++ chunks.enum.map (fun p =>
      { id := chunkIdStr (col.length + p.1)
        embedding := p.2.embedding
        document := p.2.text
        metadata := cleanMetadata p.2.metadata })

/-- The mutating operations the repository performs on a collection:
batched insertion and whole-collection deletion. -/
inductive VSOp where
  | add : List ChunkInput → VSOp
  | delete_collection : VSOp

/-- Effect of one store operation on the collection state;
`delete_collection` drops every record and so resets the count to 0. -/
def VSOp.apply (col : Collection) : VSOp → Collection
  | .add chunks => VectorStore.add_chunks col chunks
  | .delete_collection => []

/-- Collection state reached by a sequence of operations from a fresh
(empty) collection. -/
def runOps (ops : List VSOp) : Collection := ops.foldl VSOp.apply []

/-- One formatted row returned by `VectorStore.search`. -/
structure RetrievalResult where
  text : Str
  metadata : List (String × PyVal)
  distance : Int
  id : Str

/-- Modelled from the spec: the index's native dissimilarity metric (lower =
more similar); embedding coordinates are modelled as integers and the metric
as squared L2 distance.  Only the ordering contract matters to the claims. -/
def sqDist (u v : List Int) : Int := ((u.zip v).map (fun p => (p.1 - p.2) ^ 2)).sum

/-- Insert a row into a distance-sorted list, keeping it sorted. -/
def insertByDist (x : RetrievalResult) : List RetrievalResult → List RetrievalResult
  | [] => [x]
  | y :: ys => if x.distance ≤ y.distance then x :: y :: ys else y :: insertByDist x ys

/-- Sort rows by non-decreasing distance (insertion sort). -/
def sortByDist : List RetrievalResult → List RetrievalResult
  | [] => []
  | x :: xs => insertByDist x (sortByDist xs)

/-- Modelled from the spec: ChromaDB
`collection.query(query_embeddings=[q], n_results=k)` — an exact scan that
ranks every record of the collection by ascending distance to the query and
returns at most `k` rows (fewer when the collection is smaller, none when it
is empty). -/
def collectionQuery (col : Collection) (q : List Int) (k : Nat) : List RetrievalResult :=
  (sortByDist (col.map (fun r => ⟨r.document, r.metadata, sqDist q r.embedding, r.id⟩))).take k

/-- Model of `VectorStore.search`: run the query and re-package each returned
row as a result dict, preserving order; an empty query result yields the
empty list. -/
def VectorStore.search (col : Collection) (query_embedding : List Int) (top_k : Nat) :
    List RetrievalResult :=
  (collectionQuery col query_embedding top_k).map (fun r =>
    { text := r.text, metadata := r.metadata, distance := r.distance, id := r.id })

/-! ## Embedder (src/utils/embeddings.py) -/

/-- The `ValueError` message raised when no API key is configured. -/
def apiKeyErrMsg : Str :=
  ("OPENAI_API_KEY bulunamadi! Cozum: .env dosyasina ekleyin: OPENAI_API_KEY=sk-proj-xxxxxxxxx").toList

/-- Model of `EmbeddingGenerator.__init__(model_name)`: the credential read
from the environment is `none` when unset and `some []` when set to the empty
string — both are falsy in Python, so both fail construction immediately;
otherwise the generator (model name, key) is built. -/
def EmbeddingGenerator.init (api_key : Option Str) (model_name : Str) :
    Except Str (Str × Str) :=
  match api_key with
  | none => .error apiKeyErrMsg
  | some key => if key = [] then .error apiKeyErrMsg else .ok (model_name, key)

/-! ## Grounded answering (src/app.py, get_rag_response) -/

/-- The fixed refusal text returned when retrieval comes back empty
(`\x27` is an apostrophe). -/
def refusalMessage : Str :=
  ("Üzgünüm, yüklediğiniz dokümanlarda bu soruyla ilgili bilgi bulamadım. 📚\n        \nBen **Akıllı Okuyucu**\x27yum ve sadece yüklediğiniz PDF veya CSV dosyalarındaki bilgileri kullanarak sorularınızı cevaplayabilirim.\n\nLütfen dokümanlarınızla ilgili sorular sorun! 😊").toList

/-- The fixed part of the generation prompt that precedes the context block. -/
def promptPrefix : Str :=
  ("Sen Akıllı Okuyucu\x27sun. Sadece verilen context bilgisini kullanarak soruyu cevapla.\n\nÖNEMLİ KURALLAR:\n1. Eğer context\x27te sorunun cevabı YOKSA, şunu söyle: \"Bu bilgi yüklediğiniz dokümanlarda bulunmuyor. Ben sadece yüklediğiniz dokümanlar hakkında bilgi verebiliyorum.\"\n2. ASLA context dışında bilgi kullanma!\n3. Eğer soru dokümanlarla alakasızsa (örn: hava durumu, yemek tarifi, genel bilgi), şunu söyle: \"Bu soru yüklediğiniz dokümanlarla ilgili değil. Ben Akıllı Okuyucu\x27yum ve sadece yüklediğiniz dosyalardaki bilgileri kullanarak cevap verebilirim.\"\n\nContext:\n").toList

/-- The generation prompt: fixed instructions, then the context block, then
the user question. -/
def mkPrompt (context user_query : Str) : Str :=
  promptPrefix ++ context ++ "\n\nSoru: ".toList ++ user_query ++ "\n\nCevap:".toList

/-- Model of `get_rag_response(user_query)`.  The embedding and generation
services are external black boxes, passed in as functions; the trailing `Nat`
counts how many generation requests were issued.  Empty retrieval
short-circuits to the fixed refusal with no sources and no generation call;
otherwise the context block is the retrieved texts in ranking order joined by
a blank line, one generation call is made, and its raw output is returned
with exactly the retrieved sources. -/
def get_rag_response (embed : Str → List Int) (generate : Str → Str)
    (col : Collection) (user_query : Str) : (Str × List RetrievalResult) × Nat :=
  match VectorStore.search col (embed user_query) 5 with
  | [] => ((refusalMessage, []), 0)
  | r :: rs =>
    ((generate (mkPrompt
        (List.intercalate "\n\n".toList ((r :: rs).map (fun x => x.text))) user_query),
      r :: rs), 1)

/-! ## Lemmas: length accounting for the splitter -/

theorem sumLen_nil : sumLen [] = 0 := rfl

theorem sumLen_cons (s : Str) (l : List Str) :
    sumLen (s :: l) = s.length + sumLen l := by
  simp [sumLen]

theorem sumLen_append (l₁ l₂ : List Str) :
    sumLen (l₁ ++ l₂) = sumLen l₁ + sumLen l₂ := by
  simp [sumLen]

theorem length_dropWhile_le (p : Char → Bool) (t : Str) :
    (t.dropWhile p).length ≤ t.length := by
  induction t with
  | nil => simp [List.dropWhile]
  | cons c rest ih =>
    by_cases h : p c
    · simp only [List.dropWhile, h]
      exact Nat.le_succ_of_le ih
    · simp [List.dropWhile, h]

theorem length_strTrim_le (s : Str) : (strTrim s).length ≤ s.length := by
  unfold strTrim
  calc ((s.dropWhile Char.isWhitespace).reverse.dropWhile Char.isWhitespace).reverse.length
      = ((s.dropWhile Char.isWhitespace).reverse.dropWhile Char.isWhitespace).length := by
        rw [List.length_reverse]
    _ ≤ (s.dropWhile Char.isWhitespace).reverse.length := length_dropWhile_le _ _
    _ = (s.dropWhile Char.isWhitespace).length := by rw [List.length_reverse]
    _ ≤ s.length := length_dropWhile_le _ _

theorem joinDocs_length_le (docs : List Str) (doc : Str)
    (h : joinDocs docs = some doc) : doc.length ≤ sumLen docs := by
  unfold joinDocs at h
  split at h
  · exact absurd h (by simp)
  · have hd : doc = strTrim docs.flatten := by
      injection h with h
      exact h.symm
    subst hd
    calc (strTrim docs.flatten).length ≤ docs.flatten.length := length_strTrim_le _
      _ = sumLen docs := by simp [sumLen, List.length_flatten]

theorem popLoop_bound (cs ov dlen : Nat) (hd : dlen ≤ cs) (cur : List Str) :
    sumLen (popLoop cs ov dlen cur) + dlen ≤ cs := by
  induction cur with
  | nil => simpa [popLoop, sumLen_nil] using hd
  | cons c rest ih =>
    unfold popLoop
    split
    · exact ih
    · next hcond =>
      set S := sumLen (c :: rest) with hS
      omega

theorem mergeStep_inv (cs ov : Nat) (st : List Str × List Str) (d : Str)
    (hd : d.length ≤ cs) (h1 : ∀ x ∈ st.1, x.length ≤ cs)
    (h2 : sumLen st.2 ≤ cs) :
    (∀ x ∈ (mergeStep cs ov st d).1, x.length ≤ cs) ∧
      sumLen (mergeStep cs ov st d).2 ≤ cs := by
  unfold mergeStep
  dsimp only
  split
  · refine ⟨?_, ?_⟩
    · intro x hx
      split at hx
      · exact h1 x hx
      · split at hx
        · next doc hjoin =>
          rcases List.mem_append.mp hx with hx | hx
          · exact h1 x hx
          · have hxd : x = doc := by simpa using hx
            subst hxd
            exact le_trans (joinDocs_length_le _ _ hjoin) h2
        · exact h1 x hx
    · rw [sumLen_append, sumLen_cons, sumLen_nil]
      have := popLoop_bound cs ov d.length hd st.2
      omega
  · refine ⟨h1, ?_⟩
    next hcond =>
    rw [sumLen_append, sumLen_cons, sumLen_nil]
    omega

theorem foldl_mergeStep_inv (cs ov : Nat) (splits : List Str)
    (hs : ∀ s ∈ splits, s.length ≤ cs) :
    ∀ st : List Str × List Str, (∀ x ∈ st.1, x.length ≤ cs) → sumLen st.2 ≤ cs →
      (∀ x ∈ (splits.foldl (mergeStep cs ov) st).1, x.length ≤ cs) ∧
        sumLen (splits.foldl (mergeStep cs ov) st).2 ≤ cs := by
  induction splits with
  | nil => intro st h1 h2; exact ⟨h1, h2⟩
  | cons s rest ih =>
    intro st h1 h2
    have hstep := mergeStep_inv cs ov st s (hs s (by simp)) h1 h2
    exact ih (fun x hx => hs x (by simp [hx])) _ hstep.1 hstep.2

theorem mergeSplits_bound (cs ov : Nat) (splits : List Str)
    (hs : ∀ s ∈ splits, s.length ≤ cs) :
    ∀ d ∈ mergeSplits cs ov splits, d.length ≤ cs := by
  intro d hd
  unfold mergeSplits at hd
  have hinv := foldl_mergeStep_inv cs ov splits hs ([], []) (by simp) (by simp [sumLen_nil])
  dsimp only at hd
  split at hd
  · next doc hjoin =>
    rcases List.mem_append.mp hd with hd | hd
    · exact hinv.1 d hd
    · have hdd : d = doc := by simpa using hd
      subst hdd
      exact le_trans (joinDocs_length_le _ _ hjoin) hinv.2
  · exact hinv.1 d hd

theorem processSplits_bound (cs ov : Nat) (recurse : Option (Str → List Str)) :
    ∀ (splits good : List Str),
      (∀ x ∈ good, x.length ≤ cs) →
      (∀ s ∈ splits, cs ≤ s.length →
        ∀ d ∈ recurseOut recurse s, d.length ≤ cs) →
      ∀ d ∈ processSplits cs ov recurse good splits, d.length ≤ cs := by
  intro splits
  induction splits with
  | nil =>
    intro good hg _ d hd
    unfold processSplits at hd
    split at hd
    · simp at hd
    · exact mergeSplits_bound cs ov good hg d hd
  | cons s rest ih =>
    intro good hg hsp d hd
    unfold processSplits at hd
    split at hd
    · next hlt =>
      refine ih (good ++ [s]) ?_ (fun x hx => hsp x (by simp [hx])) d hd
      intro x hx
      rcases List.mem_append.mp hx with hx | hx
      · exact hg x hx
      · have : x = s := by simpa using hx
        subst this
        exact Nat.le_of_lt hlt
    · next hge =>
      rcases List.mem_append.mp hd with hd | hd
      · rcases List.mem_append.mp hd with hd | hd
        · split at hd
          · simp at hd
          · exact mergeSplits_bound cs ov good hg d hd
        · exact hsp s (by simp) (Nat.le_of_not_lt hge) d hd
      · exact ih [] (by simp) (fun x hx => hsp x (by simp [hx])) d hd

theorem chooseSep_spec (t : Str) :
    ∀ seps : List Str, [] ∈ seps →
      chooseSep t seps = ([], []) ∨
        ((chooseSep t seps).1 ≠ [] ∧ [] ∈ (chooseSep t seps).2 ∧
          (chooseSep t seps).2.length < seps.length) := by
  intro seps
  induction seps with
  | nil => intro h; simp at h
  | cons s rest ih =>
    intro hmem
    unfold chooseSep
    by_cases hs : s = []
    · left; simp [hs]
    · rw [if_neg hs]
      have hrest : [] ∈ rest := by
        rcases List.mem_cons.mp hmem with h | h
        · exact absurd h.symm hs
        · exact h
      by_cases ho : occursIn s t
      · right
        rw [if_pos ho]
        exact ⟨hs, hrest, by simp⟩
      · rw [if_neg ho]
        match rest, hrest with
        | r :: rs, hrest =>
          rcases ih hrest with h | ⟨h1, h2, h3⟩
          · left; exact h
          · right; exact ⟨h1, h2, Nat.lt_succ_of_lt h3⟩

theorem splitKeep_nil_sep (t : Str) : ∀ s ∈ splitKeep [] t, s.length = 1 := by
  intro s hs
  unfold splitKeep at hs
  rw [if_pos rfl] at hs
  rcases List.mem_filter.mp hs with ⟨hmem, -⟩
  rcases List.mem_map.mp hmem with ⟨c, -, rfl⟩
  rfl

theorem splitTextFuel_succ (cs ov fuel : Nat) (seps : List Str) (t : Str) :
    splitTextFuel cs ov (fuel + 1) seps t =
      processSplits cs ov
        (if (chooseSep t seps).2 = [] then none
         else some (fun s => splitTextFuel cs ov fuel (chooseSep t seps).2 s))
        [] (splitKeep (chooseSep t seps).1 t) := rfl

theorem splitTextFuel_bound (cs ov : Nat) (hcs : 1 ≤ cs) :
    ∀ (fuel : Nat) (seps : List Str) (t : Str), [] ∈ seps → seps.length ≤ fuel →
      ∀ d ∈ splitTextFuel cs ov fuel seps t, d.length ≤ cs := by
  intro fuel
  induction fuel with
  | zero =>
    intro seps t hmem hlen
    have : seps = [] := List.length_eq_zero.mp (Nat.le_zero.mp hlen)
    subst this
    simp at hmem
  | succ fuel ih =>
    intro seps t hmem hlen d hd
    rcases chooseSep_spec t seps hmem with h | ⟨h1, h2, h3⟩
    · have hstep : splitTextFuel cs ov (fuel + 1) seps t =
          processSplits cs ov none [] (splitKeep [] t) := by
        rw [splitTextFuel_succ, h]
        rfl
      rw [hstep] at hd
      refine processSplits_bound cs ov none _ [] (by simp) ?_ d hd
      intro s hs _ e he
      have hone : s.length = 1 := splitKeep_nil_sep t s hs
      simp only [recurseOut] at he
      have : e = s := List.mem_singleton.mp he
      subst this
      omega
    · have hne : (chooseSep t seps).2 ≠ [] := by
        intro hc; rw [hc] at h2; simp at h2
      have hstep : splitTextFuel cs ov (fuel + 1) seps t =
          processSplits cs ov
            (some (fun s => splitTextFuel cs ov fuel (chooseSep t seps).2 s))
            [] (splitKeep (chooseSep t seps).1 t) := by
        rw [splitTextFuel_succ, if_neg hne]
      rw [hstep] at hd
      refine processSplits_bound cs ov _ _ [] (by simp) ?_ d hd
      intro s _ _ e he
      simp only [recurseOut] at he
      exact ih (chooseSep t seps).2 s h2 (by omega) e he

theorem split_text_bound (cs ov : Nat) (hcs : 1 ≤ cs) (seps : List Str)
    (hmem : [] ∈ seps) (t : Str) :
    ∀ d ∈ split_text cs ov seps t, d.length ≤ cs := by
  intro d hd
  exact splitTextFuel_bound cs ov hcs seps.length seps t hmem (Nat.le_refl _) d hd

/-! ## Lemmas: ordered-dict operations -/

theorem find?_overwrite_hit (k : String) (v : PyVal) :
    ∀ d : List (String × PyVal), d.any (fun p => p.1 == k) = true →
      ((d.map (fun p => if p.1 == k then (k, v) else p)).find?
        (fun p => p.1 == k)).map (fun p => p.2) = some v := by
  intro d
  induction d with
  | nil => intro h; simp at h
  | cons p rest ih =>
    intro hany
    by_cases hp : (p.1 == k) = true
    · rw [List.map_cons, if_pos hp,
        List.find?_cons_of_pos (p := fun q : String × PyVal => q.1 == k) _ (by simp)]
      rfl
    · have hrest : rest.any (fun q => q.1 == k) = true := by
        simpa [List.any_cons, hp] using hany
      rw [List.map_cons, if_neg hp,
        List.find?_cons_of_neg (p := fun q : String × PyVal => q.1 == k) _ hp]
      exact ih hrest

theorem find?_overwrite_miss (k0 k : String) (v : PyVal) (hne : k0 ≠ k) :
    ∀ d : List (String × PyVal),
      (d.map (fun p => if p.1 == k0 then (k0, v) else p)).find? (fun p => p.1 == k) =
        d.find? (fun p => p.1 == k) := by
  intro d
  induction d with
  | nil => rfl
  | cons p rest ih =>
    by_cases hp : (p.1 == k0) = true
    · have hp1 : p.1 = k0 := by simpa using hp
      have hpk : ¬((p.1 == k) = true) := by simp [hp1, hne]
      have hk0k : ¬((((k0, v) : String × PyVal).1 == k) = true) := by simp [hne]
      rw [List.map_cons, if_pos hp,
        List.find?_cons_of_neg (p := fun q : String × PyVal => q.1 == k) _ hk0k,
        List.find?_cons_of_neg (p := fun q : String × PyVal => q.1 == k) _ hpk]
      exact ih
    · rw [List.map_cons, if_neg hp]
      by_cases hpk : (p.1 == k) = true
      · rw [List.find?_cons_of_pos (p := fun q : String × PyVal => q.1 == k) _ hpk,
          List.find?_cons_of_pos (p := fun q : String × PyVal => q.1 == k) _ hpk]
      · rw [List.find?_cons_of_neg (p := fun q : String × PyVal => q.1 == k) _ hpk,
          List.find?_cons_of_neg (p := fun q : String × PyVal => q.1 == k) _ hpk]
        exact ih

theorem find?_append_singleton_ne (k0 k : String) (v : PyVal) (hne : k0 ≠ k) :
    ∀ d : List (String × PyVal),
      (d ++ [(k0, v)]).find? (fun p => p.1 == k) = d.find? (fun p => p.1 == k) := by
  intro d
  induction d with
  | nil =>
    have h0 : ¬((((k0, v) : String × PyVal).1 == k) = true) := by simp [hne]
    rw [List.nil_append, List.find?_cons_of_neg (p := fun q : String × PyVal => q.1 == k) _ h0]
  | cons p rest ih =>
    by_cases hpk : (p.1 == k) = true
    · rw [List.cons_append, List.find?_cons_of_pos (p := fun q : String × PyVal => q.1 == k) _ hpk,
        List.find?_cons_of_pos (p := fun q : String × PyVal => q.1 == k) _ hpk]
    · rw [List.cons_append, List.find?_cons_of_neg (p := fun q : String × PyVal => q.1 == k) _ hpk,
        List.find?_cons_of_neg (p := fun q : String × PyVal => q.1 == k) _ hpk]
      exact ih

theorem find?_append_singleton_self (k : String) (v : PyVal) :
    ∀ d : List (String × PyVal), (∀ x ∈ d, ¬((x.1 == k) = true)) →
      (d ++ [(k, v)]).find? (fun p => p.1 == k) = some (k, v) := by
  intro d
  induction d with
  | nil =>
    intro _
    rw [List.nil_append, List.find?_cons_of_pos (p := fun q : String × PyVal => q.1 == k) _ (by simp)]
  | cons p rest ih =>
    intro h
    rw [List.cons_append, List.find?_cons_of_neg (p := fun q : String × PyVal => q.1 == k) _ (h p (by simp))]
    exact ih (fun x hx => h x (by simp [hx]))

theorem dictGet_dictInsert_self (d : List (String × PyVal)) (k : String) (v : PyVal) :
    dictGet (dictInsert d k v) k = some v := by
  unfold dictGet dictInsert
  split
  · next hany => exact find?_overwrite_hit k v d hany
  · next hany =>
    have hall : ∀ x ∈ d, ¬((x.1 == k) = true) := by
      intro x hx hpx
      exact hany (List.any_eq_true.mpr ⟨x, hx, hpx⟩)
    rw [find?_append_singleton_self k v d hall]
    rfl

theorem dictGet_dictInsert_ne (d : List (String × PyVal)) (k0 k : String) (v : PyVal)
    (hne : k0 ≠ k) : dictGet (dictInsert d k0 v) k = dictGet d k := by
  unfold dictGet dictInsert
  split
  · rw [find?_overwrite_miss k0 k v hne d]
  · rw [find?_append_singleton_ne k0 k v hne d]

theorem dictGet_dictMerge_not_mem (e : List (String × PyVal)) :
    ∀ (d : List (String × PyVal)) (k : String), (∀ p ∈ e, p.1 ≠ k) →
      dictGet (dictMerge d e) k = dictGet d k := by
  induction e with
  | nil => intro d k _; rfl
  | cons q rest ih =>
    intro d k h
    have hstep : dictMerge d (q :: rest) = dictMerge (dictInsert d q.1 q.2) rest := rfl
    rw [hstep, ih _ k (fun p hp => h p (by simp [hp]))]
    exact dictGet_dictInsert_ne _ _ _ _ (h q (by simp))

theorem dictGet_dictMerge_mem (e : List (String × PyVal)) :
    ∀ (d : List (String × PyVal)) (k : String) (v : PyVal),
      (e.map Prod.fst).Nodup → dictGet e k = some v →
      dictGet (dictMerge d e) k = some v := by
  induction e with
  | nil => intro d k v _ h; simp [dictGet] at h
  | cons q rest ih =>
    intro d k v hnd h
    rw [List.map_cons, List.nodup_cons] at hnd
    have hstep : dictMerge d (q :: rest) = dictMerge (dictInsert d q.1 q.2) rest := rfl
    by_cases hqk : (q.1 == k) = true
    · have hq1 : q.1 = k := by simpa using hqk
      have hv : q.2 = v := by
        unfold dictGet at h
        rw [List.find?_cons_of_pos (p := fun q : String × PyVal => q.1 == k) _ hqk] at h
        simpa using h
      have hnotin : ∀ p ∈ rest, p.1 ≠ k := by
        intro p hp hpk
        exact hnd.1 (by
          rw [hq1, ← hpk]
          exact List.mem_map.mpr ⟨p, hp, rfl⟩)
      rw [hstep, dictGet_dictMerge_not_mem rest _ k hnotin, hq1, ← hv]
      exact dictGet_dictInsert_self _ _ _
    · have h' : dictGet rest k = some v := by
        unfold dictGet at h ⊢
        rwa [List.find?_cons_of_neg (p := fun q : String × PyVal => q.1 == k) _ hqk] at h
      rw [hstep]
      exact ih _ k v hnd.2 h'

/-! ## Lemmas: the chunk-level metadata fields -/

theorem dictGet_baseMeta_chunk_id (i n : Nat) (c : Str) :
    dictGet (baseMeta i n c) "chunk_id" = some (.int i) := rfl

theorem dictGet_baseMeta_chunk_size (i n : Nat) (c : Str) :
    dictGet (baseMeta i n c) "chunk_size" = some (.int c.length) := rfl

/-! ## Claims about the chunker -/

/-- C1: for every `chunk_size > overlap ≥ 0`, every input text and every
document metadata map that does not itself carry the reserved keys, every
chunk produced by `chunk_text` has text length at most `chunk_size`, the
`chunk_id` metadata of the `i`-th chunk is exactly `i` (so the indices are
`0..chunk_count-1`, left to right, with no gaps), and the recorded
`chunk_size` metadata equals the length of the chunk's text. -/
theorem chunk_text_bounds_and_indices (cs ov : Nat) (hov : ov < cs)
    (text : Str) (meta : List (String × PyVal))
    (hm : ∀ p ∈ meta, p.1 ≠ "chunk_id" ∧ p.1 ≠ "chunk_size") :
    ∀ i (hi : i < (TextChunker.chunk_text cs ov defaultSeparators text meta).length),
      ((TextChunker.chunk_text cs ov defaultSeparators text meta)[i].text.length ≤ cs) ∧
      dictGet ((TextChunker.chunk_text cs ov defaultSeparators text meta)[i].metadata)
        "chunk_id" = some (.int i) ∧
      dictGet ((TextChunker.chunk_text cs ov defaultSeparators text meta)[i].metadata)
        "chunk_size" =
        some (.int ((TextChunker.chunk_text cs ov defaultSeparators text meta)[i].text.length)) := by
  intro i hi
  by_cases hg : text = [] ∨ strTrim text = []
  · unfold TextChunker.chunk_text at hi
    rw [if_pos hg] at hi
    simp at hi
  · have hres : TextChunker.chunk_text cs ov defaultSeparators text meta =
        (split_text cs ov defaultSeparators text).enum.map (fun p =>
          { text := p.2
            metadata := dictMerge
              (baseMeta p.1 (split_text cs ov defaultSeparators text).length p.2) meta }) := by
      unfold TextChunker.chunk_text
      rw [if_neg hg]
    have hilen : i < (split_text cs ov defaultSeparators text).length := by
      rw [hres] at hi
      simpa using hi
    have hget : (TextChunker.chunk_text cs ov defaultSeparators text meta)[i] =
        { text := (split_text cs ov defaultSeparators text)[i]
          metadata := dictMerge
            (baseMeta i (split_text cs ov defaultSeparators text).length
              (split_text cs ov defaultSeparators text)[i]) meta } := by
      rw [List.getElem_of_eq hres hi]
      simp only [List.getElem_map, List.getElem_enum]
    rw [hget]
    dsimp only
    refine ⟨?_, ?_, ?_⟩
    · exact split_text_bound cs ov (by omega) defaultSeparators (by decide) text _
        (List.getElem_mem hilen)
    · rw [dictGet_dictMerge_not_mem meta _ _ (fun p hp => (hm p hp).1)]
      exact dictGet_baseMeta_chunk_id ..
    · rw [dictGet_dictMerge_not_mem meta _ _ (fun p hp => (hm p hp).2)]
      exact dictGet_baseMeta_chunk_size ..

/-- Witness for C1 at `chunk_size = 5`, `overlap = 0`, a concrete text and
an empty document metadata map. -/
theorem chunk_text_bounds_and_indices_witness :
    (0 < 5) ∧
    (∀ p ∈ ([] : List (String × PyVal)), p.1 ≠ "chunk_id" ∧ p.1 ≠ "chunk_size") ∧
    ∀ i (hi : i < (TextChunker.chunk_text 5 0 defaultSeparators "ab cd ef gh".toList []).length),
      ((TextChunker.chunk_text 5 0 defaultSeparators "ab cd ef gh".toList [])[i].text.length ≤ 5) ∧
      dictGet ((TextChunker.chunk_text 5 0 defaultSeparators "ab cd ef gh".toList [])[i].metadata)
        "chunk_id" = some (.int i) ∧
      dictGet ((TextChunker.chunk_text 5 0 defaultSeparators "ab cd ef gh".toList [])[i].metadata)
        "chunk_size" =
        some (.int ((TextChunker.chunk_text 5 0 defaultSeparators "ab cd ef gh".toList [])[i].text.length)) :=
  ⟨by decide, by simp,
    chunk_text_bounds_and_indices 5 0 (by decide) "ab cd ef gh".toList [] (by simp)⟩

/-- C9: for every configuration, `chunk_text` on an empty or whitespace-only
text returns the empty chunk sequence (and, being a total function, raises
no error). -/
theorem chunk_text_empty_input (cs ov : Nat) (seps : List Str) (text : Str)
    (meta : List (String × PyVal)) (h : strTrim text = []) :
    TextChunker.chunk_text cs ov seps text meta = [] := by
  unfold TextChunker.chunk_text
  rw [if_pos (Or.inr h)]

/-- Witness for C9 at the default configuration and a whitespace-only text. -/
theorem chunk_text_empty_input_witness :
    strTrim "  \n ".toList = [] ∧
      TextChunker.chunk_text 500 50 defaultSeparators "  \n ".toList [] = [] :=
  ⟨by decide, chunk_text_empty_input 500 50 defaultSeparators "  \n ".toList [] (by decide)⟩

/-- C10: when the document metadata map itself carries one of the reserved
keys `chunk_id`, `chunk_size` or `total_chunks`, its value silently
overwrites the chunk-assigned value for that key in every produced chunk,
because the document metadata is merged after the chunk-level fields. -/
theorem chunk_text_doc_meta_overrides (cs ov : Nat) (text : Str)
    (meta : List (String × PyVal)) (k : String) (v : PyVal)
    (hnd : (meta.map Prod.fst).Nodup)
    (_hk : k = "chunk_id" ∨ k = "chunk_size" ∨ k = "total_chunks")
    (hv : dictGet meta k = some v) :
    ∀ ch ∈ TextChunker.chunk_text cs ov defaultSeparators text meta,
      dictGet ch.metadata k = some v := by
  intro ch hch
  by_cases hg : text = [] ∨ strTrim text = []
  · unfold TextChunker.chunk_text at hch
    rw [if_pos hg] at hch
    simp at hch
  · unfold TextChunker.chunk_text at hch
    rw [if_neg hg] at hch
    rcases List.mem_map.mp hch with ⟨p, hp, rfl⟩
    exact dictGet_dictMerge_mem meta _ k v hnd hv

/-- Witness for C10: a document metadata map binding `chunk_id` to 99 makes
every produced chunk report `chunk_id = 99`. -/
theorem chunk_text_doc_meta_overrides_witness :
    (([("chunk_id", PyVal.int 99)].map Prod.fst).Nodup) ∧
    dictGet [("chunk_id", PyVal.int 99)] "chunk_id" = some (PyVal.int 99) ∧
    ∀ ch ∈ TextChunker.chunk_text 5 0 defaultSeparators "ab cd ef gh".toList
        [("chunk_id", PyVal.int 99)],
      dictGet ch.metadata "chunk_id" = some (PyVal.int 99) :=
  ⟨by simp, rfl,
    chunk_text_doc_meta_overrides 5 0 "ab cd ef gh".toList [("chunk_id", PyVal.int 99)]
      "chunk_id" (PyVal.int 99) (by simp) (Or.inl rfl) rfl⟩

/-- C5 counterexample: `chunk_overlap = chunk_size = 10` violates
`0 ≤ overlap < chunk_size`, yet construction succeeds silently instead of
failing. -/
theorem textChunker_init_accepts_equal_overlap :
    TextChunker.init 10 10 = .ok (10, 10) := rfl

/-- C5 (amended): construction fails fatally and immediately iff
`chunk_overlap > chunk_size` (the check performed by the underlying
splitter); parameter pairs violating `0 ≤ overlap < chunk_size` with
`overlap = chunk_size` or `overlap < 0` are accepted silently. -/
theorem textChunker_init_error_iff (chunk_size chunk_overlap : Int) :
    (∃ e, TextChunker.init chunk_size chunk_overlap = .error e) ↔
      chunk_overlap > chunk_size := by
  unfold TextChunker.init
  split
  · next h => exact ⟨fun _ => h, fun _ => ⟨_, rfl⟩⟩
  · next h =>
    constructor
    · rintro ⟨e, he⟩
      cases he
    · intro hgt
      exact absurd hgt h

/-! ## Lemmas: sorting by distance -/

theorem length_insertByDist (x : RetrievalResult) (l : List RetrievalResult) :
    (insertByDist x l).length = l.length + 1 := by
  induction l with
  | nil => rfl
  | cons y ys ih =>
    unfold insertByDist
    split
    · rfl
    · simp [ih]

theorem length_sortByDist (l : List RetrievalResult) :
    (sortByDist l).length = l.length := by
  induction l with
  | nil => rfl
  | cons x xs ih =>
    unfold sortByDist
    rw [length_insertByDist, ih]
    rfl

theorem mem_insertByDist (x z : RetrievalResult) (l : List RetrievalResult) :
    z ∈ insertByDist x l ↔ z = x ∨ z ∈ l := by
  induction l with
  | nil => simp [insertByDist]
  | cons y ys ih =>
    unfold insertByDist
    split
    · simp [List.mem_cons]
    · simp [List.mem_cons, ih]
      tauto

theorem pairwise_insertByDist (x : RetrievalResult) (l : List RetrievalResult)
    (h : l.Pairwise (fun a b => a.distance ≤ b.distance)) :
    (insertByDist x l).Pairwise (fun a b => a.distance ≤ b.distance) := by
  induction l with
  | nil => simp [insertByDist]
  | cons y ys ih =>
    rcases List.pairwise_cons.mp h with ⟨hy, hys⟩
    unfold insertByDist
    split
    · next hle =>
      refine List.pairwise_cons.mpr ⟨?_, h⟩
      intro z hz
      rcases List.mem_cons.mp hz with rfl | hz
      · exact hle
      · exact le_trans hle (hy z hz)
    · next hgt =>
      push_neg at hgt
      refine List.pairwise_cons.mpr ⟨?_, ih hys⟩
      intro z hz
      rcases (mem_insertByDist x z ys).mp hz with rfl | hz
      · exact le_of_lt hgt
      · exact hy z hz

theorem pairwise_sortByDist (l : List RetrievalResult) :
    (sortByDist l).Pairwise (fun a b => a.distance ≤ b.distance) := by
  induction l with
  | nil => simp [sortByDist]
  | cons x xs ih => exact pairwise_insertByDist x _ ih

/-! ## Claims about search -/

/-- C3: for every query vector, every `k` and every collection state,
`search` returns a sequence sorted by non-decreasing distance whose length is
`min k collection_count`; in particular it is empty, not an error, on an
empty collection. -/
theorem search_length_and_sorted (col : Collection) (q : List Int) (k : Nat) :
    (VectorStore.search col q k).length = min k col.length ∧
    ((VectorStore.search col q k).map (fun r => r.distance)).Pairwise (· ≤ ·) := by
  constructor
  · unfold VectorStore.search collectionQuery
    rw [List.length_map, List.length_take, length_sortByDist, List.length_map]
  · unfold VectorStore.search collectionQuery
    rw [List.pairwise_map, List.pairwise_map]
    exact List.Pairwise.sublist (List.take_sublist _ _) (pairwise_sortByDist _)

/-! ## Lemmas: decimal ids are injective -/

theorem digit_toNat : ∀ d < 10, (Char.ofNat (48 + d)).toNat = 48 + d := by decide

theorem digitsToNat_natDigits : ∀ fuel n, n ≤ fuel → digitsToNat (natDigits fuel n) = n := by
  intro fuel
  induction fuel with
  | zero =>
    intro n hn
    have : n = 0 := Nat.le_zero.mp hn
    subst this
    rfl
  | succ fuel ih =>
    intro n hn
    by_cases h0 : n = 0
    · subst h0
      rfl
    · unfold natDigits
      rw [if_neg h0]
      unfold digitsToNat
      rw [List.foldl_append]
      have hdiv : n / 10 ≤ fuel := by omega
      have hih := ih (n / 10) hdiv
      unfold digitsToNat at hih
      rw [hih]
      simp only [List.foldl_cons, List.foldl_nil]
      rw [digit_toNat (n % 10) (Nat.mod_lt _ (by omega))]
      omega

theorem digitsToNat_natToStr (n : Nat) : digitsToNat (natToStr n) = n := by
  unfold natToStr
  by_cases h0 : n = 0
  · subst h0
    rfl
  · rw [if_neg h0]
    exact digitsToNat_natDigits n n (Nat.le_refl n)

theorem natToStr_inj (m n : Nat) (h : natToStr m = natToStr n) : m = n := by
  have hm := digitsToNat_natToStr m
  have hn := digitsToNat_natToStr n
  rw [← hm, ← hn, h]

theorem chunkIdStr_inj (m n : Nat) (h : chunkIdStr m = chunkIdStr n) : m = n := by
  unfold chunkIdStr at h
  exact natToStr_inj m n (List.append_cancel_left h)

/-! ## Lemmas: id assignment in add_chunks -/

theorem add_chunks_id_append (st : Collection) (chunks : List ChunkInput)
    (h : chunks ≠ []) :
    (VectorStore.add_chunks st chunks).map (fun r => r.id) =
      st.map (fun r => r.id) ++
        (List.range chunks.length).map (fun i => chunkIdStr (st.length + i)) := by
  match chunks, h with
  | c :: cs, _ =>
    unfold VectorStore.add_chunks
    rw [List.map_append, List.map_map]
    congr 1
    have hfst : ((c :: cs).enum.map (fun p : Nat × ChunkInput => p.1)) =
        List.range (c :: cs).length := List.enum_map_fst (c :: cs)
    calc ((c :: cs).enum.map
          ((fun r : IndexedRecord => r.id) ∘ (fun p : Nat × ChunkInput =>
            { id := chunkIdStr (st.length + p.1)
              embedding := p.2.embedding
              document := p.2.text
              metadata := cleanMetadata p.2.metadata })))
        = (c :: cs).enum.map ((fun i => chunkIdStr (st.length + i)) ∘ (fun p : Nat × ChunkInput => p.1)) := rfl
      _ = ((c :: cs).enum.map (fun p : Nat × ChunkInput => p.1)).map
            (fun i => chunkIdStr (st.length + i)) := by rw [List.map_map]
      _ = (List.range (c :: cs).length).map (fun i => chunkIdStr (st.length + i)) := by rw [hfst]

theorem add_chunks_length (st : Collection) (chunks : List ChunkInput) :
    (VectorStore.add_chunks st chunks).length = st.length +
      (match chunks with | [] => 0 | _ :: _ => chunks.length) := by
  match chunks with
  | [] => rfl
  | c :: cs =>
    unfold VectorStore.add_chunks
    simp

theorem apply_preserves_ids (col : Collection) (op : VSOp)
    (h : col.map (fun r => r.id) = (List.range col.length).map chunkIdStr) :
    (VSOp.apply col op).map (fun r => r.id) =
      (List.range (VSOp.apply col op).length).map chunkIdStr := by
  match op with
  | .delete_collection => rfl
  | .add chunks =>
    match chunks with
    | [] => exact h
    | c :: cs =>
      show (VectorStore.add_chunks col (c :: cs)).map (fun r => r.id) = _
      rw [add_chunks_id_append col (c :: cs) (by simp), h]
      have hlen : (VSOp.apply col (.add (c :: cs))).length = col.length + (c :: cs).length := by
        show (VectorStore.add_chunks col (c :: cs)).length = _
        rw [add_chunks_length]
      rw [show (VSOp.apply col (VSOp.add (c :: cs))).length = col.length + (c :: cs).length from hlen]
      rw [List.range_add, List.map_append, List.map_map]
      rfl

theorem runOps_ids (ops : List VSOp) :
    (runOps ops).map (fun r => r.id) = (List.range (runOps ops).length).map chunkIdStr := by
  unfold runOps
  have hgen : ∀ (l : List VSOp) (col : Collection),
      col.map (fun r => r.id) = (List.range col.length).map chunkIdStr →
      (l.foldl VSOp.apply col).map (fun r => r.id) =
        (List.range (l.foldl VSOp.apply col).length).map chunkIdStr := by
    intro l
    induction l with
    | nil => intro col h; exact h
    | cons op rest ih =>
      intro col h
      exact ih _ (apply_preserves_ids col op h)
  exact hgen ops [] rfl

/-- C4: starting from a fresh collection, after any sequence of insert and
delete-collection operations the record ids are exactly
`chunk_0 .. chunk_(count-1)` in order — thus unique — and inserting a
non-empty batch of `n` chunks into a collection holding `c` records assigns
the counter values `c, c+1, ..., c+n-1`; whole-collection deletion empties
the state and so resets the counter to 0. -/
theorem add_chunks_fresh_unique_ids (ops : List VSOp) (st : Collection)
    (chunks : List ChunkInput) :
    ((runOps ops).map (fun r => r.id) =
        (List.range (runOps ops).length).map chunkIdStr ∧
      ((runOps ops).map (fun r => r.id)).Nodup) ∧
    (chunks ≠ [] →
      (VectorStore.add_chunks st chunks).map (fun r => r.id) =
        st.map (fun r => r.id) ++
          (List.range chunks.length).map (fun i => chunkIdStr (st.length + i))) ∧
    VSOp.apply st .delete_collection = [] := by
  refine ⟨⟨runOps_ids ops, ?_⟩, add_chunks_id_append st chunks, rfl⟩
  rw [runOps_ids ops]
  exact (List.nodup_range _).map (fun a b => chunkIdStr_inj a b)

/-- Witness for C4: the batch of one chunk inserted into the empty
collection gets id `chunk_0`. -/
theorem add_chunks_fresh_unique_ids_witness :
    (([⟨"t".toList, [1], []⟩] : List ChunkInput) ≠ []) ∧
    (VectorStore.add_chunks ([] : Collection) [⟨"t".toList, [1], []⟩]).map (fun r => r.id) =
      ([] : Collection).map (fun r => r.id) ++
        (List.range ([⟨"t".toList, [1], []⟩] : List ChunkInput).length).map
          (fun i => chunkIdStr (([] : Collection).length + i)) :=
  ⟨by simp,
    (add_chunks_fresh_unique_ids [] [] [⟨"t".toList, [1], []⟩]).2.1 (by simp)⟩

/-! ## Claims about metadata canonicalization -/

theorem isScalar_cleanValue (v : PyVal) : isScalar (cleanValue v) = true := by
  cases v <;> rfl

theorem cleanValue_eq (v : PyVal) :
    cleanValue v = if isScalar v = true then v else .str (pyStr v) := by
  cases v <;> rfl

/-- C8: inserting a record stores every scalar metadata value (string,
number, boolean) unchanged, canonicalizes every non-scalar value to its
string representation, and therefore every stored metadata value is a
scalar. -/
theorem cleanMetadata_spec (m : List (String × PyVal)) :
    (cleanMetadata m).length = m.length ∧
    (∀ p ∈ cleanMetadata m, isScalar p.2 = true) ∧
    ∀ i (hi : i < m.length),
      (cleanMetadata m)[i]? =
        some ((m[i]).1,
          if isScalar (m[i]).2 = true then (m[i]).2 else .str (pyStr (m[i]).2)) := by
  refine ⟨by simp [cleanMetadata], ?_, ?_⟩
  · intro p hp
    rcases List.mem_map.mp hp with ⟨q, -, rfl⟩
    exact isScalar_cleanValue q.2
  · intro i hi
    unfold cleanMetadata
    rw [List.getElem?_map, List.getElem?_eq_getElem hi]
    show some ((m[i]).1, cleanValue (m[i]).2) = _
    rw [cleanValue_eq]

/-- Witness for C8 at a two-entry metadata map holding a scalar and a list. -/
theorem cleanMetadata_spec_witness :
    (1 < ([("a", PyVal.int 3), ("b", PyVal.list [])] : List (String × PyVal)).length) ∧
    (cleanMetadata [("a", PyVal.int 3), ("b", PyVal.list [])])[1]? =
      some ("b",
        if isScalar (PyVal.list []) = true then PyVal.list []
        else .str (pyStr (PyVal.list []))) :=
  ⟨by decide,
    (cleanMetadata_spec [("a", PyVal.int 3), ("b", PyVal.list [])]).2.2 1 (by decide)⟩

/-! ## Claims about the grounded answerer and the embedder -/

/-- C2: whenever retrieval returns no results — in particular on the empty
collection, whatever the query — `get_rag_response` returns the fixed
refusal text with an empty sources list and issues no generation request. -/
theorem rag_refusal_on_empty (embed : Str → List Int) (generate : Str → Str)
    (col : Collection) (q : Str)
    (h : VectorStore.search col (embed q) 5 = []) :
    get_rag_response embed generate col q = ((refusalMessage, []), 0) ∧
    get_rag_response embed generate ([] : Collection) q = ((refusalMessage, []), 0) := by
  constructor
  · unfold get_rag_response
    rw [h]
  · rfl

/-- Witness for C2: empty collection, arbitrary fixed query and services. -/
theorem rag_refusal_on_empty_witness :
    VectorStore.search ([] : Collection) ((fun _ : Str => ([] : List Int)) "hi".toList) 5 = [] ∧
    get_rag_response (fun _ => []) (fun p => p) ([] : Collection) "hi".toList =
      ((refusalMessage, []), 0) :=
  ⟨rfl, (rag_refusal_on_empty (fun _ => []) (fun p => p) [] "hi".toList rfl).1⟩

/-- C6: on a non-empty retrieval result, `get_rag_response` builds the
context by joining the retrieved texts in ranking order with a blank line,
issues exactly one generation request, and returns the generated text
unmodified together with exactly the retrieved sources. -/
theorem rag_answer_on_nonempty (embed : Str → List Int) (generate : Str → Str)
    (col : Collection) (q : Str)
    (h : VectorStore.search col (embed q) 5 ≠ []) :
    get_rag_response embed generate col q =
      ((generate (mkPrompt
          (List.intercalate "\n\n".toList
            ((VectorStore.search col (embed q) 5).map (fun r => r.text))) q),
        VectorStore.search col (embed q) 5), 1) := by
  rcases hres : VectorStore.search col (embed q) 5 with _ | ⟨r, rs⟩
  · exact absurd hres h
  · unfold get_rag_response
    rw [hres]

/-- Witness for C6 at a one-record collection. -/
theorem rag_answer_on_nonempty_witness :
    (VectorStore.search [⟨"chunk_0".toList, [0], "doc".toList, []⟩]
        ((fun _ : Str => ([0] : List Int)) "hi".toList) 5 ≠ []) ∧
    get_rag_response (fun _ => [0]) (fun p => p)
        [⟨"chunk_0".toList, [0], "doc".toList, []⟩] "hi".toList =
      (((fun p : Str => p) (mkPrompt
          (List.intercalate "\n\n".toList
            ((VectorStore.search [⟨"chunk_0".toList, [0], "doc".toList, []⟩]
              ((fun _ : Str => ([0] : List Int)) "hi".toList) 5).map (fun r => r.text))) "hi".toList),
        VectorStore.search [⟨"chunk_0".toList, [0], "doc".toList, []⟩]
          ((fun _ : Str => ([0] : List Int)) "hi".toList) 5), 1) :=
  ⟨fun hc => List.cons_ne_nil _ _ hc,
    rag_answer_on_nonempty (fun _ => [0]) (fun p => p)
      [⟨"chunk_0".toList, [0], "doc".toList, []⟩] "hi".toList
      (fun hc => List.cons_ne_nil _ _ hc)⟩

/-- C7: constructing the embedder with no usable credential (unset or empty)
fails immediately at construction time with the configuration error, and
with a non-empty credential construction succeeds (so nothing is deferred to
the first embedding call). -/
theorem embedder_init_fail_fast (api_key : Option Str) (model_name : Str) :
    (EmbeddingGenerator.init api_key model_name = .error apiKeyErrMsg ↔
      (api_key = none ∨ api_key = some [])) ∧
    (∀ k, k ≠ [] → EmbeddingGenerator.init (some k) model_name = .ok (model_name, k)) := by
  constructor
  · cases api_key with
    | none => simp [EmbeddingGenerator.init]
    | some k =>
      by_cases hk : k = []
      · subst hk
        simp [EmbeddingGenerator.init]
      · simp [EmbeddingGenerator.init, hk]
  · intro k hk
    simp [EmbeddingGenerator.init, hk]

/-- Witness for C7: unset credential fails, a concrete key succeeds. -/
theorem embedder_init_fail_fast_witness :
    ("sk".toList ≠ ([] : Str)) ∧
    EmbeddingGenerator.init (some "sk".toList) "text-embedding-3-small".toList =
      .ok ("text-embedding-3-small".toList, "sk".toList) :=
  ⟨by decide,
    (embedder_init_fail_fast (some "sk".toList) "text-embedding-3-small".toList).2
      "sk".toList (by decide)⟩

end RagCore
